import Mathlib

/-!
Verification development for the WCDB checkpoint-scheduling core
(`src/objc/source/core/BuiltinConfig.cpp`).

The source file wires a commit hook (`BuiltinConfig::checkpoint`) to a
process-wide `TimedQueue<std::string>` with delay 2, and a background worker
thread that loops on `waitUntilExpired`, attempting a WAL checkpoint on each
expired database path.  The `TimedQueue` implementation itself
(`WCDB/timed_queue.hpp`) is only included, not part of the surveyed sources,
so it is modelled from the specification; the commit-hook threshold logic,
the worker callback, and the `basic` configuration are embedded directly
from `BuiltinConfig.cpp`.

Time is discrete (`Nat`); the consumer is idealised to pop an entry exactly
when its expiry is reached.
-/

set_option autoImplicit false

/-- Modelled from the spec: the state of `TimedQueue<std::string>`
(`WCDB/timed_queue.hpp`, not among the surveyed sources) — a map from key
(database path) to expiry time, with a fixed `delay` set at construction.
Entries are kept as an association list, most recent insertion first. -/
structure TimedQueue where
  delay : Nat
  entries : List (String × Nat)

/-- Modelled from the spec: `TimedQueue::reQueue(key)` — inserts `key` with
expiry `now + delay` if absent; if present, resets its expiry to
`now + delay` (last-write-wins: any previous entry for the key is dropped). -/
def TimedQueue.reQueue (q : TimedQueue) (key : String) (now : Nat) : TimedQueue :=
  { q with entries := (key, now + q.delay) :: q.entries.filter (fun e => e.1 != key) }

/-- Removal of a key from the queue (the pop performed inside
`waitUntilExpired` after the minimum-expiry entry has expired). -/
def TimedQueue.removeKey (q : TimedQueue) (key : String) : TimedQueue :=
  { q with entries := q.entries.filter (fun e => e.1 != key) }

/-- The entry with minimum expiry in an association list. -/
def minExpiryEntry : List (String × Nat) → Option (String × Nat)
  | [] => Option.none
  | e :: es =>
    match minExpiryEntry es with
    | Option.none => Option.some e
    | Option.some m => if e.2 < m.2 then Option.some e else Option.some m

/-- Modelled from the spec: the entry `waitUntilExpired` waits on — the one
with the globally minimum expiry. -/
def TimedQueue.minEntry (q : TimedQueue) : Option (String × Nat) :=
  minExpiryEntry q.entries

/-- Modelled from the spec: a discrete-time run of the producer/consumer
system.  `events` is the time-ordered list of `(time, key)` `reQueue` calls
made by committing threads; the single consumer pops the minimum-expiry
entry exactly when its expiry passes and invokes the callback.  A `reQueue`
at time `t` strictly before the earliest expiry is applied first; otherwise
the expired entry fires first.  The result is the list of
`(key, fireTime)` callback invocations, in order.  `fuel` bounds the number
of steps (each step consumes an event or pops an entry). -/
def run : Nat → List (Nat × String) → TimedQueue → List (String × Nat)
  | 0, _, _ => []
  | Nat.succ fuel, events, q =>
    match q.minEntry, events with
    | Option.none, [] => []
    | Option.none, ev :: rest => run fuel rest (q.reQueue ev.2 ev.1)
    | Option.some m, [] => m :: run fuel [] (q.removeKey m.1)
    | Option.some m, ev :: rest =>
      if ev.1 < m.2 then run fuel rest (q.reQueue ev.2 ev.1)
      else m :: run fuel (ev :: rest) (q.removeKey m.1)

/-- `BuiltinConfig::checkpoint`'s committed hook (BuiltinConfig.cpp:222-226):
on each commit notification it requeues the database's path into the shared
queue exactly when the reported page count is strictly greater than 1000;
otherwise it does nothing. -/
def checkpointCommittedHook (q : TimedQueue) (path : String) (pages : Int)
    (now : Nat) : TimedQueue :=
  if pages > 1000 then q.reQueue path now else q

/-- The result type of `Database::getType()`; the worker callback only
distinguishes `CoreType::None` from everything else. -/
inductive CoreType where
  | none
  | database
deriving DecidableEq

/-- Observable outcome of one invocation of the worker's per-key callback:
either it skipped (no database found, nothing executed) or it issued the
WAL-checkpoint statement, whose success flag is discarded by the source. -/
inductive CheckpointOutcome where
  | skipped
  | attempted (ok : Bool)
deriving DecidableEq

/-- The external collaborators the worker callback consumes:
`Database(path, true)` ("get existing database only") observed through
`getType`, and execution of `PRAGMA wal_checkpoint` reporting success. -/
structure WorkerEnv where
  getType : String → CoreType
  walCheckpoint : String → Bool

/-- The worker's per-key callback (BuiltinConfig.cpp:232-242): resolve the
path with "get existing database only"; if `getType() != CoreType::None`,
execute `PRAGMA wal_checkpoint` into a local `innerError` that is then
discarded; otherwise do nothing.  The function is total: no error escapes. -/
def checkpointCallback (env : WorkerEnv) (path : String) : CheckpointOutcome :=
  if env.getType path = CoreType.none then CheckpointOutcome.skipped
  else CheckpointOutcome.attempted (env.walCheckpoint path)

/-- The maintenance loop (BuiltinConfig.cpp:229-243): `while (true)` around
`waitUntilExpired(callback)`.  Each popped `(key, fireTime)` is paired with
the outcome of the callback on that key. -/
def workerRun (env : WorkerEnv) (fuel : Nat) (events : List (Nat × String))
    (q : TimedQueue) : List (String × Nat × CheckpointOutcome) :=
  (run fuel events q).map (fun o => (o.1, o.2, checkpointCallback env o.1))

/-- ASCII lower-casing of a character, as `strcasecmp` does. -/
def asciiLower (c : Char) : Char :=
  if 65 ≤ c.toNat ∧ c.toNat ≤ 90 then Char.ofNat (c.toNat + 32) else c

/-- `strcasecmp(a, b) == 0`: case-insensitive (ASCII) string equality. -/
def strcaseEq (a b : String) : Bool :=
  a.data.map asciiLower == b.data.map asciiLower

/-- The pragma statements prepared or executed by `BuiltinConfig::basic`. -/
inductive PragmaStmt where
  | getJournalMode
  | getLockingMode
  | setLockingModeNormal
  | setSynchronousNormal
  | setJournalModeWAL
  | setFullFsync
deriving DecidableEq

/-- The slice of the handle the `basic` configuration observes: whether it
is read-only, the text answers of the two `get` pragmas, and whether each
prepare/step or exec against the underlying connection succeeds. -/
structure Handle where
  readonly : Bool
  journalQueryOk : Bool
  journalMode : String
  lockingQueryOk : Bool
  lockingMode : String
  execOk : PragmaStmt → Bool

/-- Observable outcome of running `BuiltinConfig::basic` on a handle:
the returned boolean, whether `Error::Abort` was hit, and the traces of
`get` pragmas queried and `set` pragmas issued, in order. -/
structure BasicOutcome where
  ok : Bool
  aborted : Bool
  reads : List PragmaStmt
  writes : List PragmaStmt
deriving DecidableEq

/-- `BuiltinConfig::basic` (BuiltinConfig.cpp:32-152).  Read-only handles:
query the journal mode; if it reads as WAL case-insensitively, call
`Error::Abort` and return false; otherwise return true having issued no
configuration write.  Writable handles: normalise the locking mode, set
synchronous NORMAL, switch the journal mode to WAL when it is not already,
and enable fullfsync, failing fast on the first error. -/
def basic (h : Handle) : BasicOutcome :=
  if h.readonly then
    if h.journalQueryOk = false then
      { ok := false, aborted := false, reads := [PragmaStmt.getJournalMode], writes := [] }
    else if strcaseEq h.journalMode "WAL" then
      { ok := false, aborted := true, reads := [PragmaStmt.getJournalMode], writes := [] }
    else
      { ok := true, aborted := false, reads := [PragmaStmt.getJournalMode], writes := [] }
  else
    if h.lockingQueryOk = false then
      { ok := false, aborted := false, reads := [PragmaStmt.getLockingMode], writes := [] }
    else
      let lockingNeedsSet := !strcaseEq h.lockingMode "NORMAL"
      let w1 := if lockingNeedsSet then [PragmaStmt.setLockingModeNormal] else []
      if lockingNeedsSet && !h.execOk PragmaStmt.setLockingModeNormal then
        { ok := false, aborted := false, reads := [PragmaStmt.getLockingMode], writes := w1 }
      else
        let w2 := w1 ++ [PragmaStmt.setSynchronousNormal]
        if !h.execOk PragmaStmt.setSynchronousNormal then
          { ok := false, aborted := false, reads := [PragmaStmt.getLockingMode], writes := w2 }
        else if h.journalQueryOk = false then
          { ok := false, aborted := false
            reads := [PragmaStmt.getLockingMode, PragmaStmt.getJournalMode], writes := w2 }
        else
          let journalNeedsSet := !strcaseEq h.journalMode "WAL"
          let w3 := w2 ++ if journalNeedsSet then [PragmaStmt.setJournalModeWAL] else []
          if journalNeedsSet && !h.execOk PragmaStmt.setJournalModeWAL then
            { ok := false, aborted := false
              reads := [PragmaStmt.getLockingMode, PragmaStmt.getJournalMode], writes := w3 }
          else
            let w4 := w3 ++ [PragmaStmt.setFullFsync]
            if !h.execOk PragmaStmt.setFullFsync then
              { ok := false, aborted := false
                reads := [PragmaStmt.getLockingMode, PragmaStmt.getJournalMode], writes := w4 }
            else
              { ok := true, aborted := false
                reads := [PragmaStmt.getLockingMode, PragmaStmt.getJournalMode], writes := w4 }


theorem minExpiryEntry_none :
    ∀ (l : List (String × Nat)), minExpiryEntry l = Option.none → l = [] := by
  intro l
  cases l with
  | nil => intro _; rfl
  | cons e es =>
    intro h
    simp only [minExpiryEntry] at h
    cases hm : minExpiryEntry es <;> rw [hm] at h <;> simp at h
    split at h <;> simp at h

theorem minExpiryEntry_mem :
    ∀ (l : List (String × Nat)) (m : String × Nat),
    minExpiryEntry l = Option.some m → m ∈ l := by
  intro l
  induction l with
  | nil => intro m h; simp [minExpiryEntry] at h
  | cons e es ih =>
    intro m h
    simp only [minExpiryEntry] at h
    cases hm : minExpiryEntry es with
    | none => rw [hm] at h; simp at h; simp [h]
    | some m0 =>
      rw [hm] at h
      by_cases hlt : e.2 < m0.2
      · simp [hlt] at h; simp [h]
      · simp [hlt] at h
        right
        exact h ▸ ih m0 hm

theorem minExpiryEntry_le :
    ∀ (l : List (String × Nat)) (m : String × Nat),
    minExpiryEntry l = Option.some m → ∀ e ∈ l, m.2 ≤ e.2 := by
  intro l
  induction l with
  | nil => intro m h; simp [minExpiryEntry] at h
  | cons a es ih =>
    intro m h e he
    simp only [minExpiryEntry] at h
    cases hm : minExpiryEntry es with
    | none =>
      rw [hm] at h; simp at h
      have hes : es = [] := minExpiryEntry_none es hm
      subst hes
      simp at he
      subst h; subst he; exact Nat.le_refl _
    | some m0 =>
      rw [hm] at h
      by_cases hlt : a.2 < m0.2
      · simp [hlt] at h
        subst h
        rcases List.mem_cons.mp he with rfl | hmem
        · exact Nat.le_refl _
        · exact Nat.le_trans (Nat.le_of_lt hlt) (ih m0 hm e hmem)
      · simp [hlt] at h
        subst h
        rcases List.mem_cons.mp he with rfl | hmem
        · exact Nat.le_of_not_lt hlt
        · exact ih m0 hm e hmem

theorem run_succ_none_nil (n : Nat) (q : TimedQueue)
    (h : q.minEntry = Option.none) : run (n + 1) [] q = [] := by
  simp only [run]; rw [h]

theorem run_succ_none_cons (n : Nat) (ev : Nat × String)
    (rest : List (Nat × String)) (q : TimedQueue)
    (h : q.minEntry = Option.none) :
    run (n + 1) (ev :: rest) q = run n rest (q.reQueue ev.2 ev.1) := by
  simp only [run]; rw [h]

theorem run_succ_some_nil (n : Nat) (q : TimedQueue) (m : String × Nat)
    (h : q.minEntry = Option.some m) :
    run (n + 1) [] q = m :: run n [] (q.removeKey m.1) := by
  simp only [run]; rw [h]

theorem run_succ_some_cons_lt (n : Nat) (ev : Nat × String)
    (rest : List (Nat × String)) (q : TimedQueue) (m : String × Nat)
    (h : q.minEntry = Option.some m) (hlt : ev.1 < m.2) :
    run (n + 1) (ev :: rest) q = run n rest (q.reQueue ev.2 ev.1) := by
  simp only [run]; rw [h]; simp [hlt]

theorem run_succ_some_cons_ge (n : Nat) (ev : Nat × String)
    (rest : List (Nat × String)) (q : TimedQueue) (m : String × Nat)
    (h : q.minEntry = Option.some m) (hge : ¬ ev.1 < m.2) :
    run (n + 1) (ev :: rest) q = m :: run n (ev :: rest) (q.removeKey m.1) := by
  simp only [run]; rw [h]; simp [hge]

theorem reQueue_delay (q : TimedQueue) (k : String) (t : Nat) :
    (q.reQueue k t).delay = q.delay := rfl

theorem removeKey_delay (q : TimedQueue) (k : String) :
    (q.removeKey k).delay = q.delay := rfl

theorem run_lowerBound (c : Nat) :
    ∀ (fuel : Nat) (events : List (Nat × String)) (q : TimedQueue),
    (∀ e ∈ q.entries, c ≤ e.2) →
    (∀ ev ∈ events, c ≤ ev.1 + q.delay) →
    ∀ o ∈ run fuel events q, c ≤ o.2 := by
  intro fuel
  induction fuel with
  | zero => intro events q _ _ o ho; simp [run] at ho
  | succ n ih =>
    intro events q hq hev o ho
    cases hm : q.minEntry with
    | none =>
      cases events with
      | nil => rw [run_succ_none_nil n q hm] at ho; simp at ho
      | cons ev rest =>
        rw [run_succ_none_cons n ev rest q hm] at ho
        refine ih rest (q.reQueue ev.2 ev.1) ?_ ?_ o ho
        · intro e he
          simp only [TimedQueue.reQueue] at he
          rcases List.mem_cons.mp he with rfl | hmem
          · exact hev ev (List.mem_cons_self _ _)
          · exact hq e (List.mem_of_mem_filter hmem)
        · intro ev2 h2
          exact hev ev2 (List.mem_cons_of_mem _ h2)
    | some m =>
      have hmem : m ∈ q.entries := minExpiryEntry_mem q.entries m hm
      cases events with
      | nil =>
        rw [run_succ_some_nil n q m hm] at ho
        rcases List.mem_cons.mp ho with rfl | ho2
        · exact hq o hmem
        · refine ih [] (q.removeKey m.1) ?_ ?_ o ho2
          · intro e he
            exact hq e (List.mem_of_mem_filter he)
          · intro ev2 h2; simp at h2
      | cons ev rest =>
        by_cases hlt : ev.1 < m.2
        · rw [run_succ_some_cons_lt n ev rest q m hm hlt] at ho
          refine ih rest (q.reQueue ev.2 ev.1) ?_ ?_ o ho
          · intro e he
            simp only [TimedQueue.reQueue] at he
            rcases List.mem_cons.mp he with rfl | hmem2
            · exact hev ev (List.mem_cons_self _ _)
            · exact hq e (List.mem_of_mem_filter hmem2)
          · intro ev2 h2
            exact hev ev2 (List.mem_cons_of_mem _ h2)
        · rw [run_succ_some_cons_ge n ev rest q m hm hlt] at ho
          rcases List.mem_cons.mp ho with rfl | ho2
          · exact hq o hmem
          · refine ih (ev :: rest) (q.removeKey m.1) ?_ ?_ o ho2
            · intro e he
              exact hq e (List.mem_of_mem_filter he)
            · intro ev2 h2
              exact hev ev2 h2

theorem run_pairwise :
    ∀ (fuel : Nat) (events : List (Nat × String)) (q : TimedQueue),
    List.Pairwise (fun a b => a.1 ≤ b.1) events →
    (∀ e ∈ q.entries, ∀ ev ∈ events, e.2 ≤ ev.1 + q.delay) →
    List.Pairwise (fun (a b : String × Nat) => a.2 ≤ b.2) (run fuel events q) := by
  intro fuel
  induction fuel with
  | zero => intro events q _ _; simp [run]
  | succ n ih =>
    intro events q hev hqe
    cases hm : q.minEntry with
    | none =>
      cases events with
      | nil => rw [run_succ_none_nil n q hm]; exact List.Pairwise.nil
      | cons ev rest =>
        rw [run_succ_none_cons n ev rest q hm]
        refine ih rest (q.reQueue ev.2 ev.1) (List.pairwise_cons.mp hev).2 ?_
        intro e he ev2 h2
        rw [reQueue_delay]
        simp only [TimedQueue.reQueue] at he
        rcases List.mem_cons.mp he with rfl | hmem
        · exact Nat.add_le_add_right ((List.pairwise_cons.mp hev).1 ev2 h2) _
        · exact hqe e (List.mem_of_mem_filter hmem) ev2 (List.mem_cons_of_mem _ h2)
    | some m =>
      have hmin : ∀ e ∈ q.entries, m.2 ≤ e.2 := minExpiryEntry_le q.entries m hm
      cases events with
      | nil =>
        rw [run_succ_some_nil n q m hm]
        refine List.pairwise_cons.mpr ⟨?_, ?_⟩
        · intro y hy
          refine run_lowerBound m.2 n [] (q.removeKey m.1) ?_ ?_ y hy
          · intro e he; exact hmin e (List.mem_of_mem_filter he)
          · intro ev2 h2; simp at h2
        · refine ih [] (q.removeKey m.1) List.Pairwise.nil ?_
          intro e _ ev2 h2; simp at h2
      | cons ev rest =>
        by_cases hlt : ev.1 < m.2
        · rw [run_succ_some_cons_lt n ev rest q m hm hlt]
          refine ih rest (q.reQueue ev.2 ev.1) (List.pairwise_cons.mp hev).2 ?_
          intro e he ev2 h2
          rw [reQueue_delay]
          simp only [TimedQueue.reQueue] at he
          rcases List.mem_cons.mp he with rfl | hmem
          · exact Nat.add_le_add_right ((List.pairwise_cons.mp hev).1 ev2 h2) _
          · exact hqe e (List.mem_of_mem_filter hmem) ev2 (List.mem_cons_of_mem _ h2)
        · rw [run_succ_some_cons_ge n ev rest q m hm hlt]
          have hme : m.2 ≤ ev.1 := Nat.le_of_not_lt hlt
          refine List.pairwise_cons.mpr ⟨?_, ?_⟩
          · intro y hy
            refine run_lowerBound m.2 n (ev :: rest) (q.removeKey m.1) ?_ ?_ y hy
            · intro e he; exact hmin e (List.mem_of_mem_filter he)
            · intro ev2 h2
              rw [removeKey_delay]
              rcases List.mem_cons.mp h2 with rfl | hmem2
              · exact Nat.le_trans hme (Nat.le_add_right _ _)
              · exact Nat.le_trans
                  (Nat.le_trans hme ((List.pairwise_cons.mp hev).1 ev2 hmem2))
                  (Nat.le_add_right _ _)
          · refine ih (ev :: rest) (q.removeKey m.1) hev ?_
            intro e he ev2 h2
            rw [removeKey_delay]
            exact hqe e (List.mem_of_mem_filter he) ev2 h2

theorem run_origin :
    ∀ (fuel : Nat) (events : List (Nat × String)) (q : TimedQueue),
    ∀ o ∈ run fuel events q,
    o ∈ q.entries ∨ ∃ t, (t, o.1) ∈ events ∧ o.2 = t + q.delay := by
  intro fuel
  induction fuel with
  | zero => intro events q o ho; simp [run] at ho
  | succ n ih =>
    intro events q o ho
    cases hm : q.minEntry with
    | none =>
      cases events with
      | nil => rw [run_succ_none_nil n q hm] at ho; simp at ho
      | cons ev rest =>
        rw [run_succ_none_cons n ev rest q hm] at ho
        rcases ih rest (q.reQueue ev.2 ev.1) o ho with hin | ⟨t, htm, hte⟩
        · simp only [TimedQueue.reQueue] at hin
          rcases List.mem_cons.mp hin with rfl | hmem
          · exact Or.inr ⟨ev.1, List.mem_cons_self _ _, rfl⟩
          · exact Or.inl (List.mem_of_mem_filter hmem)
        · exact Or.inr ⟨t, List.mem_cons_of_mem _ htm, hte⟩
    | some m =>
      have hmem : m ∈ q.entries := minExpiryEntry_mem q.entries m hm
      cases events with
      | nil =>
        rw [run_succ_some_nil n q m hm] at ho
        rcases List.mem_cons.mp ho with rfl | ho2
        · exact Or.inl hmem
        · rcases ih [] (q.removeKey m.1) o ho2 with hin | ⟨t, htm, _⟩
          · exact Or.inl (List.mem_of_mem_filter hin)
          · simp at htm
      | cons ev rest =>
        by_cases hlt : ev.1 < m.2
        · rw [run_succ_some_cons_lt n ev rest q m hm hlt] at ho
          rcases ih rest (q.reQueue ev.2 ev.1) o ho with hin | ⟨t, htm, hte⟩
          · simp only [TimedQueue.reQueue] at hin
            rcases List.mem_cons.mp hin with rfl | hmem2
            · exact Or.inr ⟨ev.1, List.mem_cons_self _ _, rfl⟩
            · exact Or.inl (List.mem_of_mem_filter hmem2)
          · exact Or.inr ⟨t, List.mem_cons_of_mem _ htm, hte⟩
        · rw [run_succ_some_cons_ge n ev rest q m hm hlt] at ho
          rcases List.mem_cons.mp ho with rfl | ho2
          · exact Or.inl hmem
          · rcases ih (ev :: rest) (q.removeKey m.1) o ho2 with hin | ⟨t, htm, hte⟩
            · exact Or.inl (List.mem_of_mem_filter hin)
            · exact Or.inr ⟨t, htm, hte⟩

theorem run_fire_count :
    ∀ (fuel : Nat) (events : List (Nat × String)) (q : TimedQueue) (k : String),
    (run fuel events q).countP (fun o => o.1 == k) ≤
      q.entries.countP (fun e => e.1 == k) + events.countP (fun ev => ev.2 == k) := by
  intro fuel
  induction fuel with
  | zero => intro events q k; simp [run]
  | succ n ih =>
    intro events q k
    cases hm : q.minEntry with
    | none =>
      cases events with
      | nil => rw [run_succ_none_nil n q hm]; simp
      | cons ev rest =>
        rw [run_succ_none_cons n ev rest q hm]
        have hsub : (q.reQueue ev.2 ev.1).entries.countP (fun e => e.1 == k) ≤
            (if (ev.2 == k) = true then 1 else 0) + q.entries.countP (fun e => e.1 == k) := by
          simp only [TimedQueue.reQueue, List.countP_cons]
          have := List.Sublist.countP_le (p := fun e => e.1 == k)
            (List.filter_sublist (l := q.entries) (p := fun e => e.1 != ev.2))
          split <;> omega
        have hih := ih rest (q.reQueue ev.2 ev.1) k
        rw [List.countP_cons]
        by_cases hevk : (ev.2 == k) = true
        · simp only [hevk, if_true] at hsub ⊢; omega
        · simp only [hevk, Bool.false_eq_true, if_false] at hsub ⊢; omega
    | some m =>
      have hmem : m ∈ q.entries := minExpiryEntry_mem q.entries m hm
      have hkey :
          (run n events (q.removeKey m.1)).countP (fun o => o.1 == k) +
              (if (m.1 == k) = true then 1 else 0) ≤
            q.entries.countP (fun e => e.1 == k) +
              events.countP (fun ev => ev.2 == k) := by
        have hih := ih events (q.removeKey m.1) k
        by_cases hk : m.1 = k
        · have hzero : (q.removeKey m.1).entries.countP (fun e => e.1 == k) = 0 := by
            refine List.countP_eq_zero.mpr ?_
            intro e he
            have hne := (List.mem_filter.mp he).2
            simp only [bne_iff_ne, ne_eq] at hne
            simp only [beq_iff_eq]
            rw [hk] at hne
            exact hne
          have hpos : 0 < q.entries.countP (fun e => e.1 == k) := by
            refine List.countP_pos_iff.mpr ⟨m, hmem, ?_⟩
            simp [hk]
          have htrue : (m.1 == k) = true := by simp [hk]
          rw [hzero] at hih
          simp only [htrue, if_true]
          omega
        · have hle : (q.removeKey m.1).entries.countP (fun e => e.1 == k) ≤
              q.entries.countP (fun e => e.1 == k) :=
            List.Sublist.countP_le _ (List.filter_sublist _)
          have hfalse : (m.1 == k) = false := by simp [hk]
          simp only [hfalse, Bool.false_eq_true, if_false]
          omega
      cases events with
      | nil =>
        rw [run_succ_some_nil n q m hm, List.countP_cons]
        exact hkey
      | cons ev rest =>
        by_cases hlt : ev.1 < m.2
        · rw [run_succ_some_cons_lt n ev rest q m hm hlt]
          have hsub : (q.reQueue ev.2 ev.1).entries.countP (fun e => e.1 == k) ≤
              (if (ev.2 == k) = true then 1 else 0) + q.entries.countP (fun e => e.1 == k) := by
            simp only [TimedQueue.reQueue, List.countP_cons]
            have := List.Sublist.countP_le (p := fun e => e.1 == k)
              (List.filter_sublist (l := q.entries) (p := fun e => e.1 != ev.2))
            split <;> omega
          have hih := ih rest (q.reQueue ev.2 ev.1) k
          rw [List.countP_cons]
          by_cases hevk : (ev.2 == k) = true
          · simp only [hevk, if_true] at hsub ⊢; omega
          · simp only [hevk, Bool.false_eq_true, if_false] at hsub ⊢; omega
        · rw [run_succ_some_cons_ge n ev rest q m hm hlt, List.countP_cons]
          exact hkey

theorem find?_filter_ne (k k' : String) (hne : k' ≠ k) :
    ∀ (l : List (String × Nat)),
    (l.filter (fun e => e.1 != k)).find? (fun e => e.1 == k') =
      l.find? (fun e => e.1 == k') := by
  intro l
  induction l with
  | nil => rfl
  | cons e es ih =>
    by_cases hek : e.1 = k
    · have h1 : (e.1 != k) = false := by simp [hek]
      have h2 : (e.1 == k') = false := by
        simp only [beq_eq_false_iff_ne, ne_eq, hek]
        intro h
        exact hne h.symm
      simp only [List.filter_cons, h1, if_false, List.find?_cons, h2]
      exact ih
    · have h1 : (e.1 != k) = true := by simp [hek]
      simp only [List.filter_cons, h1, if_true, List.find?_cons]
      cases hp : (e.1 == k') <;> simp [ih]

theorem filter_eq_of_filter_ne (k : String) (l : List (String × Nat)) :
    (l.filter (fun e => e.1 != k)).filter (fun e => e.1 == k) = [] := by
  refine List.filter_eq_nil_iff.mpr ?_
  intro e he
  have := (List.mem_filter.mp he).2
  simp at this ⊢
  exact this

theorem foldl_reQueue_delay (k : String) :
    ∀ (ts : List Nat) (q : TimedQueue),
    (ts.foldl (fun acc t => acc.reQueue k t) q).delay = q.delay := by
  intro ts
  induction ts with
  | nil => intro q; rfl
  | cons t ts ih => intro q; rw [List.foldl_cons, ih, reQueue_delay]

theorem run_keyLowerBound (c : Nat) (k : String) :
    ∀ (fuel : Nat) (events : List (Nat × String)) (q : TimedQueue),
    (∀ e ∈ q.entries, e.1 = k → c ≤ e.2) →
    (∀ ev ∈ events, ev.2 = k → c ≤ ev.1 + q.delay) →
    ∀ o ∈ run fuel events q, o.1 = k → c ≤ o.2 := by
  intro fuel
  induction fuel with
  | zero => intro events q _ _ o ho; simp [run] at ho
  | succ n ih =>
    intro events q hq hev o ho hok
    cases hm : q.minEntry with
    | none =>
      cases events with
      | nil => rw [run_succ_none_nil n q hm] at ho; simp at ho
      | cons ev0 rest =>
        rw [run_succ_none_cons n ev0 rest q hm] at ho
        refine ih rest (q.reQueue ev0.2 ev0.1) ?_ ?_ o ho hok
        · intro e he hek
          simp only [TimedQueue.reQueue] at he
          rcases List.mem_cons.mp he with rfl | hmem
          · exact hev ev0 (List.mem_cons_self _ _) hek
          · exact hq e (List.mem_of_mem_filter hmem) hek
        · intro ev2 h2 hk2
          exact hev ev2 (List.mem_cons_of_mem _ h2) hk2
    | some m =>
      cases events with
      | nil =>
        rw [run_succ_some_nil n q m hm] at ho
        rcases List.mem_cons.mp ho with rfl | ho2
        · exact hq o (minExpiryEntry_mem q.entries o hm) hok
        · refine ih [] (q.removeKey m.1) ?_ ?_ o ho2 hok
          · intro e he hek
            exact hq e (List.mem_of_mem_filter he) hek
          · intro ev2 h2; simp at h2
      | cons ev0 rest =>
        by_cases hlt : ev0.1 < m.2
        · rw [run_succ_some_cons_lt n ev0 rest q m hm hlt] at ho
          refine ih rest (q.reQueue ev0.2 ev0.1) ?_ ?_ o ho hok
          · intro e he hek
            simp only [TimedQueue.reQueue] at he
            rcases List.mem_cons.mp he with rfl | hmem
            · exact hev ev0 (List.mem_cons_self _ _) hek
            · exact hq e (List.mem_of_mem_filter hmem) hek
          · intro ev2 h2 hk2
            exact hev ev2 (List.mem_cons_of_mem _ h2) hk2
        · rw [run_succ_some_cons_ge n ev0 rest q m hm hlt] at ho
          rcases List.mem_cons.mp ho with rfl | ho2
          · exact hq o (minExpiryEntry_mem q.entries o hm) hok
          · refine ih (ev0 :: rest) (q.removeKey m.1) ?_ ?_ o ho2 hok
            · intro e he hek
              exact hq e (List.mem_of_mem_filter he) hek
            · intro ev2 h2 hk2
              exact hev ev2 h2 hk2

theorem run_fire_after_requeue :
    ∀ (fuel : Nat) (events : List (Nat × String)) (q : TimedQueue),
    List.Pairwise (fun a b => a.1 ≤ b.1) events →
    ∀ o ∈ run fuel events q, ∀ ev ∈ events,
    ev.2 = o.1 → ev.1 < o.2 → ev.1 + q.delay ≤ o.2 := by
  intro fuel
  induction fuel with
  | zero => intro events q _ o ho; simp [run] at ho
  | succ n ih =>
    intro events q hsorted o ho ev hev hkey hbefore
    cases hm : q.minEntry with
    | none =>
      cases events with
      | nil => rw [run_succ_none_nil n q hm] at ho; simp at ho
      | cons ev0 rest =>
        rw [run_succ_none_cons n ev0 rest q hm] at ho
        rcases List.mem_cons.mp hev with rfl | hmem
        · refine run_keyLowerBound (ev.1 + q.delay) ev.2 n rest
            (q.reQueue ev.2 ev.1) ?_ ?_ o ho hkey.symm
          · intro e he hek
            simp only [TimedQueue.reQueue] at he
            rcases List.mem_cons.mp he with rfl | hmem2
            · exact Nat.le_refl _
            · have := (List.mem_filter.mp hmem2).2
              simp [hek] at this
          · intro ev2 h2 _
            exact Nat.add_le_add_right ((List.pairwise_cons.mp hsorted).1 ev2 h2) _
        · exact ih rest (q.reQueue ev0.2 ev0.1)
            (List.pairwise_cons.mp hsorted).2 o ho ev hmem hkey hbefore
    | some m =>
      cases events with
      | nil => exact absurd hev (List.not_mem_nil ev)
      | cons ev0 rest =>
        by_cases hlt : ev0.1 < m.2
        · rw [run_succ_some_cons_lt n ev0 rest q m hm hlt] at ho
          rcases List.mem_cons.mp hev with rfl | hmem
          · refine run_keyLowerBound (ev.1 + q.delay) ev.2 n rest
              (q.reQueue ev.2 ev.1) ?_ ?_ o ho hkey.symm
            · intro e he hek
              simp only [TimedQueue.reQueue] at he
              rcases List.mem_cons.mp he with rfl | hmem2
              · exact Nat.le_refl _
              · have := (List.mem_filter.mp hmem2).2
                simp [hek] at this
            · intro ev2 h2 _
              exact Nat.add_le_add_right ((List.pairwise_cons.mp hsorted).1 ev2 h2) _
          · exact ih rest (q.reQueue ev0.2 ev0.1)
              (List.pairwise_cons.mp hsorted).2 o ho ev hmem hkey hbefore
        · rw [run_succ_some_cons_ge n ev0 rest q m hm hlt] at ho
          rcases List.mem_cons.mp ho with rfl | ho2
          · have hm0 : o.2 ≤ ev0.1 := Nat.le_of_not_lt hlt
            rcases List.mem_cons.mp hev with rfl | hmem
            · exact absurd hbefore (Nat.not_lt.mpr hm0)
            · have h01 : ev0.1 ≤ ev.1 := (List.pairwise_cons.mp hsorted).1 ev hmem
              exact absurd hbefore (Nat.not_lt.mpr (Nat.le_trans hm0 h01))
          · exact ih (ev0 :: rest) (q.removeKey m.1) hsorted o ho2 ev hev hkey hbefore

/-- C1: Debounce — with delay = 2, for every key `k`, requeueing `k` at t=0
and again at t=1 yields exactly one callback for `k`, fired at t=3 (delay
after the last requeue, not the first): never two callbacks, never at t=2. -/
theorem debounce_two_requeues_one_fire (k : String) :
    run 4 [(0, k), (1, k)] (TimedQueue.mk 2 []) = [(k, 3)] := by
  simp [run, TimedQueue.reQueue, TimedQueue.removeKey, TimedQueue.minEntry,
    minExpiryEntry, List.filter]

/-- C2: Threshold boundary — on every commit notification the hook requeues
the database's path if and only if the reported page count is strictly
greater than 1000: a commit of exactly 1000 pages leaves the queue
untouched, a commit of 1001 pages requeues, and no other action is taken. -/
theorem threshold_boundary (q : TimedQueue) (path : String) (pages : Int) (now : Nat) :
    (pages > 1000 → checkpointCommittedHook q path pages now = q.reQueue path now)
    ∧ (¬ pages > 1000 → checkpointCommittedHook q path pages now = q)
    ∧ checkpointCommittedHook q path 1000 now = q
    ∧ checkpointCommittedHook q path 1001 now = q.reQueue path now := by
  refine ⟨fun h => ?_, fun h => ?_, ?_, ?_⟩
  · simp [checkpointCommittedHook, h]
  · simp [checkpointCommittedHook, h]
  · simp [checkpointCommittedHook]
  · norm_num [checkpointCommittedHook]

theorem threshold_boundary_witness :
    checkpointCommittedHook (TimedQueue.mk 2 []) "p" 1001 0 =
      (TimedQueue.mk 2 []).reQueue "p" 0
    ∧ checkpointCommittedHook (TimedQueue.mk 2 []) "p" 1000 0 = TimedQueue.mk 2 [] :=
  ⟨(threshold_boundary (TimedQueue.mk 2 []) "p" 1001 0).1 (by norm_num),
   (threshold_boundary (TimedQueue.mk 2 []) "p" 1000 0).2.1 (by norm_num)⟩

/-- C3: Queue-membership invariant — a `reQueue` keeps keys pairwise
distinct, leaves the requeued key with the single entry
`(key, now + delay)` (replacing any pending entry rather than adding a
second one), and leaves every other key's entry unchanged. -/
theorem queue_membership_invariant (q : TimedQueue) (k : String) (now : Nat)
    (hnodup : (q.entries.map Prod.fst).Nodup) :
    ((q.reQueue k now).entries.map Prod.fst).Nodup
    ∧ (q.reQueue k now).entries.find? (fun e => e.1 == k) =
        Option.some (k, now + q.delay)
    ∧ ∀ k', k' ≠ k →
        (q.reQueue k now).entries.find? (fun e => e.1 == k') =
          q.entries.find? (fun e => e.1 == k') := by
  refine ⟨?_, ?_, ?_⟩
  · simp only [TimedQueue.reQueue, List.map_cons, List.nodup_cons]
    constructor
    · intro hmem
      rcases List.mem_map.mp hmem with ⟨e, hef, hke⟩
      have := (List.mem_filter.mp hef).2
      simp at this
      exact this hke
    · exact hnodup.sublist ((List.filter_sublist _).map Prod.fst)
  · simp [TimedQueue.reQueue, List.find?_cons]
  · intro k' hk
    simp only [TimedQueue.reQueue, List.find?_cons]
    have : ((k, now + q.delay).1 == k') = false := by
      simp only [beq_eq_false_iff_ne, ne_eq]
      exact fun h => hk h.symm
    rw [this]
    exact find?_filter_ne k k' hk q.entries

theorem queue_membership_invariant_witness :
    ((((TimedQueue.mk 2 [("b", 9)]).reQueue "a" 1).entries.map Prod.fst).Nodup)
    ∧ ((TimedQueue.mk 2 [("b", 9)]).reQueue "a" 1).entries.find?
        (fun e => e.1 == "a") = Option.some ("a", 3)
    ∧ ((TimedQueue.mk 2 [("b", 9)]).reQueue "a" 1).entries.find?
        (fun e => e.1 == "b") =
        (TimedQueue.mk 2 [("b", 9)]).entries.find? (fun e => e.1 == "b") := by
  have h := queue_membership_invariant (TimedQueue.mk 2 [("b", 9)]) "a" 1 (by decide)
  exact ⟨h.1, h.2.1, h.2.2 "b" (by decide)⟩

/-- C4: Delivery order — entries are handed to the single consumer in
non-decreasing expiry order; every callback's fire time is `t + delay` for
a requeue at time `t` of that key; a key's callback never fires earlier
than `delay` after ANY of that key's requeues that precede it — in
particular never before `time_of_last_requeue + delay` (a first-write-wins
queue firing at first requeue + delay would violate this); and in the
concrete two-key scenario the key with the earlier expiry is delivered
strictly first. -/
theorem delivery_order (fuel : Nat) (events : List (Nat × String)) (d : Nat)
    (hsorted : List.Pairwise (fun a b => a.1 ≤ b.1) events) :
    List.Pairwise (fun (a b : String × Nat) => a.2 ≤ b.2)
        (run fuel events (TimedQueue.mk d []))
    ∧ (∀ o ∈ run fuel events (TimedQueue.mk d []),
        ∃ t, (t, o.1) ∈ events ∧ o.2 = t + d)
    ∧ (∀ o ∈ run fuel events (TimedQueue.mk d []), ∀ ev ∈ events,
        ev.2 = o.1 → ev.1 < o.2 → ev.1 + d ≤ o.2)
    ∧ run 4 [(0, "A"), (1, "B")] (TimedQueue.mk 2 []) = [("A", 2), ("B", 3)] := by
  refine ⟨?_, ?_, ?_, by decide⟩
  · refine run_pairwise fuel events (TimedQueue.mk d []) hsorted ?_
    intro e he
    exact absurd he (List.not_mem_nil e)
  · intro o ho
    rcases run_origin fuel events (TimedQueue.mk d []) o ho with hin | ⟨t, htm, hte⟩
    · exact absurd hin (List.not_mem_nil o)
    · exact ⟨t, htm, hte⟩
  · intro o ho ev hev hkey hbefore
    exact run_fire_after_requeue fuel events (TimedQueue.mk d []) hsorted
      o ho ev hev hkey hbefore

theorem delivery_order_witness :
    List.Pairwise (fun (a b : String × Nat) => a.2 ≤ b.2)
        (run 4 [(0, "A"), (1, "B")] (TimedQueue.mk 2 []))
    ∧ run 4 [(0, "A"), (1, "B")] (TimedQueue.mk 2 []) = [("A", 2), ("B", 3)] := by
  have h := delivery_order 4 [(0, "A"), (1, "B")] 2 (by decide)
  exact ⟨h.1, h.2.2.2⟩

/-- C5: Single-fire — after the worker pops a key, the key is absent from
the queue (`find?` yields nothing after removal), and across any whole run
a key's callback fires at most as many times as it was requeued: no
automatic retry without a fresh `reQueue`. -/
theorem single_fire :
    (∀ (q : TimedQueue) (k : String),
      (q.removeKey k).entries.find? (fun e => e.1 == k) = Option.none)
    ∧ ∀ (fuel : Nat) (events : List (Nat × String)) (d : Nat) (k : String),
        (run fuel events (TimedQueue.mk d [])).countP (fun o => o.1 == k) ≤
          events.countP (fun ev => ev.2 == k) := by
  constructor
  · intro q k
    refine List.find?_eq_none.mpr ?_
    intro e he
    have := (List.mem_filter.mp he).2
    simp at this ⊢
    exact this
  · intro fuel events d k
    have h := run_fire_count fuel events (TimedQueue.mk d []) k
    simpa using h

/-- C6: Fault isolation — the schedule of processed keys and fire times is
the same for every environment, so a failing checkpoint (the success flag
is discarded inside the callback) never terminates the loop and every other
queued key is still processed at its scheduled time; concretely, with every
checkpoint attempt failing, both queued keys are still handed to the
callback at their scheduled times. -/
theorem fault_isolation :
    (∀ (env : WorkerEnv) (fuel : Nat) (events : List (Nat × String)) (q : TimedQueue),
      (workerRun env fuel events q).map (fun x => (x.1, x.2.1)) = run fuel events q)
    ∧ workerRun (WorkerEnv.mk (fun _ => CoreType.database) (fun _ => false)) 5
        [(0, "A"), (1, "B")] (TimedQueue.mk 2 []) =
      [("A", 2, CheckpointOutcome.attempted false),
       ("B", 3, CheckpointOutcome.attempted false)] := by
  constructor
  · intro env fuel events q
    unfold workerRun
    rw [List.map_map]
    have hfun : ((fun (x : String × Nat × CheckpointOutcome) => (x.1, x.2.1)) ∘
        (fun (o : String × Nat) => (o.1, o.2, checkpointCallback env o.1))) = id := by
      funext o; rfl
    rw [hfun, List.map_id]
  · decide

/-- C7: Silent skip on missing database — the worker callback resolves the
key with an open-existing-only lookup; when the lookup yields
`CoreType::None` it performs no checkpoint and reports no error, and it
issues the checkpoint statement exactly when a database is found. -/
theorem silent_skip_on_missing_database (env : WorkerEnv) (path : String) :
    (env.getType path = CoreType.none →
      checkpointCallback env path = CheckpointOutcome.skipped)
    ∧ (env.getType path ≠ CoreType.none →
      checkpointCallback env path = CheckpointOutcome.attempted (env.walCheckpoint path)) := by
  constructor
  · intro h; simp [checkpointCallback, h]
  · intro h; simp [checkpointCallback, h]

theorem silent_skip_on_missing_database_witness :
    checkpointCallback (WorkerEnv.mk (fun _ => CoreType.none) (fun _ => true)) "db" =
      CheckpointOutcome.skipped
    ∧ checkpointCallback (WorkerEnv.mk (fun _ => CoreType.database) (fun _ => false)) "db" =
      CheckpointOutcome.attempted false :=
  ⟨(silent_skip_on_missing_database
      (WorkerEnv.mk (fun _ => CoreType.none) (fun _ => true)) "db").1 rfl,
   (silent_skip_on_missing_database
      (WorkerEnv.mk (fun _ => CoreType.database) (fun _ => false)) "db").2 (by decide)⟩

/-- C8: Fail-fast on read-only WAL — applying the basic configuration to a
read-only handle whose journal mode reads as WAL case-insensitively hits
`Error::Abort` and returns false, issuing no configuration write. -/
theorem readonly_wal_fail_fast (h : Handle)
    (hro : h.readonly = true) (hq : h.journalQueryOk = true)
    (hwal : strcaseEq h.journalMode "WAL" = true) :
    basic h = { ok := false, aborted := true,
                reads := [PragmaStmt.getJournalMode], writes := [] } := by
  simp [basic, hro, hq, hwal]

theorem readonly_wal_fail_fast_witness :
    basic (Handle.mk true true "Wal" true "NORMAL" (fun _ => true)) =
      { ok := false, aborted := true,
        reads := [PragmaStmt.getJournalMode], writes := [] } :=
  readonly_wal_fail_fast (Handle.mk true true "Wal" true "NORMAL" (fun _ => true))
    rfl rfl (by decide)

/-- C9: Last-write-wins — folding any non-empty sequence of `reQueue` calls
for the same key (serialised in time order by the queue's lock, last call
at time `tn`) over any starting queue leaves exactly one pending entry for
that key, with expiry `tn + delay`; `reQueue` is a total bookkeeping
function and never fails. -/
theorem last_write_wins (q : TimedQueue) (k : String) (ts : List Nat) (tn : Nat) :
    ((ts ++ [tn]).foldl (fun acc t => acc.reQueue k t) q).entries.filter
        (fun e => e.1 == k) = [(k, tn + q.delay)] := by
  rw [List.foldl_append, List.foldl_cons, List.foldl_nil]
  have hd := foldl_reQueue_delay k ts q
  set q1 := ts.foldl (fun acc t => acc.reQueue k t) q with hq1
  have hent : (q1.reQueue k tn).entries =
      (k, tn + q1.delay) :: q1.entries.filter (fun e => e.1 != k) := rfl
  rw [hent, List.filter_cons]
  simp [filter_eq_of_filter_ne, hd]

/-- C10: Frame effect of `basic` on a read-only non-WAL handle — the
configuration returns true after only reading the journal mode: it issues
none of the configuration writes (locking mode, synchronous, journal mode,
fullfsync), leaving the handle's settings unchanged. -/
theorem readonly_non_wal_frame (h : Handle)
    (hro : h.readonly = true) (hq : h.journalQueryOk = true)
    (hwal : strcaseEq h.journalMode "WAL" = false) :
    basic h = { ok := true, aborted := false,
                reads := [PragmaStmt.getJournalMode], writes := [] } := by
  simp [basic, hro, hq, hwal]

theorem readonly_non_wal_frame_witness :
    basic (Handle.mk true true "DELETE" true "NORMAL" (fun _ => true)) =
      { ok := true, aborted := false,
        reads := [PragmaStmt.getJournalMode], writes := [] } :=
  readonly_non_wal_frame (Handle.mk true true "DELETE" true "NORMAL" (fun _ => true))
    rfl rfl (by decide)
